import Mathlib

set_option maxRecDepth 100000

/-!
Verification of the binary-discovery and shell-bridging core of the
`opcode` repository (`src-tauri/src/claude_binary.rs`,
`src-tauri/src/shell_environment.rs`, `src-tauri/src/commands/shell.rs`).

Strings are modelled as `List Char`; raw subprocess output is modelled as
`List Nat` (one entry per byte, each < 256).  Functions that in the source
perform I/O (scanners, subprocess probes, the settings database) receive
their external data as explicit arguments, following the source's
documented separation between pure policy code and I/O.
-/

/-! ## Version segment parsing (`claude_binary.rs`, `compare_versions`) -/

/-- Code-point ranges of the Unicode general category `Nd` (decimal digit),
Unicode 14.0.0 — the character class of the regex crate's `\d`.  Digits of
scripts added to Unicode after 14.0.0 are outside this table. -/
def unicodeNdRanges : List (Nat × Nat) :=
  [(48, 57), (1632, 1641), (1776, 1785), (1984, 1993), (2406, 2415), (2534, 2543),
   (2662, 2671), (2790, 2799), (2918, 2927), (3046, 3055), (3174, 3183), (3302, 3311),
   (3430, 3439), (3558, 3567), (3664, 3673), (3792, 3801), (3872, 3881), (4160, 4169),
   (4240, 4249), (6112, 6121), (6160, 6169), (6470, 6479), (6608, 6617), (6784, 6793),
   (6800, 6809), (6992, 7001), (7088, 7097), (7232, 7241), (7248, 7257), (42528,
   42537), (43216, 43225), (43264, 43273), (43472, 43481), (43504, 43513), (43600,
   43609), (44016, 44025), (65296, 65305), (66720, 66729), (68912, 68921), (69734,
   69743), (69872, 69881), (69942, 69951), (70096, 70105), (70384, 70393), (70736,
   70745), (70864, 70873), (71248, 71257), (71360, 71369), (71472, 71481), (71904,
   71913), (72016, 72025), (72784, 72793), (73040, 73049), (73120, 73129), (92768,
   92777), (92864, 92873), (93008, 93017), (120782, 120831), (123200, 123209),
   (123632, 123641), (125264, 125273), (130032, 130041)]

/-- Code-point ranges of the Unicode general categories `Nd`, `Nl` and `No`,
Unicode 14.0.0 — the character class of Rust `char::is_numeric`.  Characters
added to Unicode after 14.0.0 are outside this table. -/
def unicodeNumericRanges : List (Nat × Nat) :=
  [(48, 57), (178, 179), (185, 185), (188, 190), (1632, 1641), (1776, 1785), (1984,
   1993), (2406, 2415), (2534, 2543), (2548, 2553), (2662, 2671), (2790, 2799), (2918,
   2927), (2930, 2935), (3046, 3058), (3174, 3183), (3192, 3198), (3302, 3311), (3416,
   3422), (3430, 3448), (3558, 3567), (3664, 3673), (3792, 3801), (3872, 3891), (4160,
   4169), (4240, 4249), (4969, 4988), (5870, 5872), (6112, 6121), (6128, 6137), (6160,
   6169), (6470, 6479), (6608, 6618), (6784, 6793), (6800, 6809), (6992, 7001), (7088,
   7097), (7232, 7241), (7248, 7257), (8304, 8304), (8308, 8313), (8320, 8329), (8528,
   8578), (8581, 8585), (9312, 9371), (9450, 9471), (10102, 10131), (11517, 11517),
   (12295, 12295), (12321, 12329), (12344, 12346), (12690, 12693), (12832, 12841),
   (12872, 12879), (12881, 12895), (12928, 12937), (12977, 12991), (42528, 42537),
   (42726, 42735), (43056, 43061), (43216, 43225), (43264, 43273), (43472, 43481),
   (43504, 43513), (43600, 43609), (44016, 44025), (65296, 65305), (65799, 65843),
   (65856, 65912), (65930, 65931), (66273, 66299), (66336, 66339), (66369, 66369),
   (66378, 66378), (66513, 66517), (66720, 66729), (67672, 67679), (67705, 67711),
   (67751, 67759), (67835, 67839), (67862, 67867), (68028, 68029), (68032, 68047),
   (68050, 68095), (68160, 68168), (68221, 68222), (68253, 68255), (68331, 68335),
   (68440, 68447), (68472, 68479), (68521, 68527), (68858, 68863), (68912, 68921),
   (69216, 69246), (69405, 69414), (69457, 69460), (69573, 69579), (69714, 69743),
   (69872, 69881), (69942, 69951), (70096, 70105), (70113, 70132), (70384, 70393),
   (70736, 70745), (70864, 70873), (71248, 71257), (71360, 71369), (71472, 71483),
   (71904, 71922), (72016, 72025), (72784, 72812), (73040, 73049), (73120, 73129),
   (73664, 73684), (74752, 74862), (92768, 92777), (92864, 92873), (93008, 93017),
   (93019, 93025), (93824, 93846), (119520, 119539), (119648, 119672), (120782,
   120831), (123200, 123209), (123632, 123641), (125127, 125135), (125264, 125273),
   (126065, 126123), (126125, 126127), (126129, 126132), (126209, 126253), (126255,
   126269), (127232, 127244), (130032, 130041)]

/-- Membership of a code point in a list of inclusive ranges. -/
def inRanges (rs : List (Nat × Nat)) (n : Nat) : Bool :=
  rs.any (fun r => r.1 ≤ n ∧ n ≤ r.2)

/-- Rust `char::is_numeric` as used by `compare_versions`: true exactly for
the Unicode general categories `Nd`, `Nl` and `No`. -/
def rustIsNumeric (c : Char) : Bool := inRanges unicodeNumericRanges c.toNat

/-- The regex crate's `\d`: the Unicode general category `Nd`. -/
def regexDigit (c : Char) : Bool := inRanges unicodeNdRanges c.toNat

/-- Value of a list of ASCII digit characters read in base 10. -/
def digitsVal (l : List Char) : Nat := l.foldl (fun a c => 10 * a + (c.toNat - 48)) 0

/-- Rust `str::parse::<u32>` on a leading numeric run: parsing fails when
the string is empty, contains any character other than an ASCII decimal
digit (a `'+'` sign cannot occur here, since `char::is_numeric '+'` is
false), or the value exceeds `u32::MAX`. -/
def parseU32 (l : List Char) : Option Nat :=
  if l = [] ∨ ¬ l.all Char.isDigit then none
  else if digitsVal l < 4294967296 then some (digitsVal l) else none

/-- `compare_versions`' segment extraction: split on `'.'`, keep for each
segment only the leading run of Unicode-numeric characters, parse as
`u32`, and drop segments whose parse fails (`filter_map` in the source) —
so a run that is empty, contains a non-ASCII numeric character, or
overflows drops its whole segment. -/
def versionParts (s : List Char) : List Nat :=
  (s.splitOn '.').filterMap (fun seg => parseU32 (seg.takeWhile rustIsNumeric))

/-- The index loop of `compare_versions`: for `i` in `0..max(len_a, len_b)`,
compare `a_parts.get(i).unwrap_or(&0)` with `b_parts.get(i).unwrap_or(&0)`,
returning the first non-equal result.  `fuel` counts the remaining
iterations, so the loop body runs exactly `max(len_a, len_b)` times. -/
def cmpIdxGo (aP bP : List Nat) : Nat → Nat → Ordering
| 0, _ => .eq
| fuel + 1, i =>
  match compare (aP.getD i 0) (bP.getD i 0) with
  | .eq => cmpIdxGo aP bP fuel (i + 1)
  | o => o

/-- `compare_versions` from `claude_binary.rs`. -/
def compare_versions (a b : List Char) : Ordering :=
  cmpIdxGo (versionParts a) (versionParts b)
    (max (versionParts a).length (versionParts b).length) 0

/-- Reference comparison of an empty segment sequence (identified with an
all-zero padding) against `ys`, segment by segment. -/
def cmpZerosAgainst : List Nat → Ordering
| [] => .eq
| y :: ys => match compare 0 y with | .eq => cmpZerosAgainst ys | o => o

/-- Reference comparison of two integer-segment sequences, as the spec words
it: the shorter sequence is padded with 0 and the two are compared
lexicographically by segment (a missing segment reads as 0). -/
def cmpParts : List Nat → List Nat → Ordering
| [], ys => cmpZerosAgainst ys
| x :: xs, ys =>
  match compare x (ys.headD 0) with
  | .eq => cmpParts xs ys.tail
  | o => o

/-- Segment extraction exactly as the C2 claim words it: segments that fail
to parse are treated as 0 while KEEPING their position.  (The source instead
drops such segments; this definition exists to compare the two.) -/
def specVersionParts (s : List Char) : List Nat :=
  (s.splitOn '.').map (fun seg => (parseU32 (seg.takeWhile rustIsNumeric)).getD 0)

/-- The C2 claim's reference version comparison (position-keeping). -/
def specCompareVersions (a b : List Char) : Ordering :=
  cmpParts (specVersionParts a) (specVersionParts b)

/-! ### Arithmetic facts about `compare` on `Nat` -/

theorem natCompare_swap (m n : Nat) : compare m n = (compare n m).swap := by
  rcases Nat.lt_trichotomy m n with h | h | h
  · simp [Nat.compare_eq_lt.mpr h, Nat.compare_eq_gt.mpr h, Ordering.swap]
  · simp [h, Nat.compare_eq_eq.mpr rfl, Ordering.swap]
  · simp [Nat.compare_eq_gt.mpr h, Nat.compare_eq_lt.mpr h, Ordering.swap]

theorem natCompare_self (m : Nat) : compare m m = .eq := Nat.compare_eq_eq.mpr rfl

/-! ### The index loop agrees with the padded lexicographic comparison -/

theorem cmpParts_head_tail (x y : List Nat) :
    cmpParts x y =
      match compare (x.headD 0) (y.headD 0) with
      | .eq => cmpParts x.tail y.tail
      | o => o := by
  match x, y with
  | [], [] => simp [cmpParts, cmpZerosAgainst, natCompare_self]
  | [], b :: bs => rfl
  | a :: as', [] => rfl
  | a :: as', b :: bs => rfl

theorem headD_drop (l : List Nat) (i : Nat) : (l.drop i).headD 0 = l.getD i 0 := by
  rw [List.headD_eq_head?_getD, List.head?_drop, List.getD_eq_getElem?_getD]

theorem cmpIdxGo_eq_cmpParts (aP bP : List Nat) :
    ∀ fuel i, max aP.length bP.length ≤ i + fuel →
      cmpIdxGo aP bP fuel i = cmpParts (aP.drop i) (bP.drop i) := by
  intro fuel
  induction fuel with
  | zero =>
    intro i h
    have ha : aP.length ≤ i := le_trans (le_max_left _ _) (by simpa using h)
    have hb : bP.length ≤ i := le_trans (le_max_right _ _) (by simpa using h)
    rw [List.drop_eq_nil_of_le ha, List.drop_eq_nil_of_le hb]
    rfl
  | succ fuel ih =>
    intro i h
    rw [cmpParts_head_tail, List.tail_drop, List.tail_drop, headD_drop, headD_drop]
    show (match compare (aP.getD i 0) (bP.getD i 0) with
      | .eq => cmpIdxGo aP bP fuel (i + 1)
      | o => o) = _
    have h' : max aP.length bP.length ≤ (i + 1) + fuel := by omega
    rw [ih (i + 1) h']

theorem compare_versions_eq_cmpParts (a b : List Char) :
    compare_versions a b = cmpParts (versionParts a) (versionParts b) := by
  unfold compare_versions
  rw [cmpIdxGo_eq_cmpParts _ _ _ 0 (by omega)]
  simp

/-! ### Order-theoretic properties of `cmpParts` -/

theorem cmpParts_self (x : List Nat) : cmpParts x x = .eq := by
  induction x with
  | nil => rfl
  | cons a t ih =>
    show (match compare a ((a :: t).headD 0) with
      | .eq => cmpParts t (a :: t).tail | o => o) = .eq
    simpa [natCompare_self] using ih

theorem cmpParts_swap_fuel :
    ∀ n x y, x.length + y.length ≤ n → cmpParts x y = (cmpParts y x).swap := by
  intro n
  induction n with
  | zero =>
    intro x y h
    have hx : x = [] := List.length_eq_zero.mp (by omega)
    have hy : y = [] := List.length_eq_zero.mp (by omega)
    subst hx; subst hy; rfl
  | succ n ih =>
    intro x y h
    by_cases hxy : x = [] ∧ y = []
    · obtain ⟨hx, hy⟩ := hxy; subst hx; subst hy; rfl
    · have hlen : x.tail.length + y.tail.length ≤ n := by
        rcases x with _ | ⟨a, xs⟩ <;> rcases y with _ | ⟨b, ys⟩ <;>
          (simp_all; try omega)
      rw [cmpParts_head_tail x y, cmpParts_head_tail y x,
        natCompare_swap (x.headD 0) (y.headD 0)]
      cases hc : compare (y.headD 0) (x.headD 0) with
      | eq => simpa [Ordering.swap] using ih x.tail y.tail hlen
      | lt => simp [Ordering.swap]
      | gt => simp [Ordering.swap]

theorem cmpParts_swap (x y : List Nat) : cmpParts x y = (cmpParts y x).swap :=
  cmpParts_swap_fuel (x.length + y.length) x y le_rfl

theorem cmpParts_le_trans_fuel :
    ∀ n x y z, x.length + y.length + z.length ≤ n →
      cmpParts x y ≠ .gt → cmpParts y z ≠ .gt → cmpParts x z ≠ .gt := by
  intro n
  induction n with
  | zero =>
    intro x y z h _ _
    have hx : x = [] := List.length_eq_zero.mp (by omega)
    have hz : z = [] := List.length_eq_zero.mp (by omega)
    subst hx; subst hz
    simp [cmpParts, cmpZerosAgainst]
  | succ n ih =>
    intro x y z h h1 h2
    by_cases hall : x = [] ∧ y = [] ∧ z = []
    · obtain ⟨hx, _, hz⟩ := hall; subst hx; subst hz
      simp [cmpParts, cmpZerosAgainst]
    · have hlen : x.tail.length + y.tail.length + z.tail.length ≤ n := by
        rcases x with _ | ⟨a, xs⟩ <;> rcases y with _ | ⟨b, ys⟩ <;>
          rcases z with _ | ⟨c, zs⟩ <;> simp_all <;> omega
      rw [cmpParts_head_tail x y] at h1
      rw [cmpParts_head_tail y z] at h2
      rw [cmpParts_head_tail x z]
      cases hxy : compare (x.headD 0) (y.headD 0) with
      | gt => rw [hxy] at h1; exact absurd rfl h1
      | eq =>
        have hexy : x.headD 0 = y.headD 0 := Nat.compare_eq_eq.mp hxy
        rw [hxy] at h1
        cases hyz : compare (y.headD 0) (z.headD 0) with
        | gt => rw [hyz] at h2; exact absurd rfl h2
        | eq =>
          have heyz : y.headD 0 = z.headD 0 := Nat.compare_eq_eq.mp hyz
          rw [hyz] at h2
          rw [show compare (x.headD 0) (z.headD 0) = .eq from
            Nat.compare_eq_eq.mpr (hexy.trans heyz)]
          exact ih x.tail y.tail z.tail hlen h1 h2
        | lt =>
          have hlt : y.headD 0 < z.headD 0 := Nat.compare_eq_lt.mp hyz
          rw [show compare (x.headD 0) (z.headD 0) = .lt from
            Nat.compare_eq_lt.mpr (hexy ▸ hlt)]
          simp
      | lt =>
        have hxy' : x.headD 0 < y.headD 0 := Nat.compare_eq_lt.mp hxy
        cases hyz : compare (y.headD 0) (z.headD 0) with
        | gt => rw [hyz] at h2; exact absurd rfl h2
        | eq =>
          have heyz : y.headD 0 = z.headD 0 := Nat.compare_eq_eq.mp hyz
          rw [show compare (x.headD 0) (z.headD 0) = .lt from
            Nat.compare_eq_lt.mpr (heyz ▸ hxy')]
          simp
        | lt =>
          have hyz' : y.headD 0 < z.headD 0 := Nat.compare_eq_lt.mp hyz
          rw [show compare (x.headD 0) (z.headD 0) = .lt from
            Nat.compare_eq_lt.mpr (lt_trans hxy' hyz')]
          simp

theorem cmpParts_le_trans {x y z : List Nat}
    (h1 : cmpParts x y ≠ .gt) (h2 : cmpParts y z ≠ .gt) : cmpParts x z ≠ .gt :=
  cmpParts_le_trans_fuel (x.length + y.length + z.length) x y z le_rfl h1 h2

/-! ## Installations and selection (`claude_binary.rs`) -/

/-- `InstallationType` from `claude_binary.rs`. -/
inductive InstallationType
| System
| Custom
deriving DecidableEq, Repr

/-- `ClaudeInstallation` from `claude_binary.rs`. -/
structure ClaudeInstallation where
  path : List Char
  version : Option (List Char)
  source : List Char
  installation_type : InstallationType
  wsl_distro : Option (List Char)
deriving DecidableEq, Repr

/-- The bare fallback name recorded by the PATH scanner. -/
def claudeBareName : List Char := "claude".data

/-- The comparator closure passed to `max_by` in `select_best_installation`. -/
def installCmp (a b : ClaudeInstallation) : Ordering :=
  match a.version, b.version with
  | some v1, some v2 => compare_versions v1 v2
  | some _, none => .gt
  | none, some _ => .lt
  | none, none =>
    if a.path = claudeBareName ∧ b.path ≠ claudeBareName then .lt
    else if a.path ≠ claudeBareName ∧ b.path = claudeBareName then .gt
    else .eq

/-- One step of Rust `Iterator::max_by`: `std::cmp::max_by` keeps the
accumulator only when it compares strictly greater, so among equal maxima
the later element wins. -/
def maxByStep (acc x : ClaudeInstallation) : ClaudeInstallation :=
  if installCmp acc x = .gt then acc else x

/-- `select_best_installation` from `claude_binary.rs`: `max_by` over the
catalog (a `reduce` with `maxByStep`), `None` exactly on an empty catalog. -/
def select_best_installation (installations : List ClaudeInstallation) :
    Option ClaudeInstallation :=
  match installations with
  | [] => none
  | h :: t => some (t.foldl maxByStep h)

/-! ### Comparator laws -/

theorem installCmp_self (a : ClaudeInstallation) : installCmp a a = .eq := by
  unfold installCmp
  match hv : a.version with
  | some v => simpa [compare_versions_eq_cmpParts] using cmpParts_self (versionParts v)
  | none => by_cases h : a.path = claudeBareName <;> simp [h]

theorem installCmp_swap (a b : ClaudeInstallation) :
    installCmp a b = (installCmp b a).swap := by
  unfold installCmp
  match hva : a.version, hvb : b.version with
  | some v1, some v2 =>
    simp only [compare_versions_eq_cmpParts]
    exact cmpParts_swap _ _
  | some _, none => rfl
  | none, some _ => rfl
  | none, none =>
    by_cases ha : a.path = claudeBareName <;> by_cases hb : b.path = claudeBareName <;>
      simp [ha, hb, Ordering.swap]

theorem installCmp_le_trans {x y z : ClaudeInstallation}
    (h1 : installCmp x y ≠ .gt) (h2 : installCmp y z ≠ .gt) :
    installCmp x z ≠ .gt := by
  unfold installCmp at *
  match hvx : x.version, hvy : y.version, hvz : z.version with
  | some v1, some v2, some v3 =>
    rw [hvx, hvy] at h1; rw [hvy, hvz] at h2
    simp only [compare_versions_eq_cmpParts] at *
    exact cmpParts_le_trans h1 h2
  | some v1, some v2, none => rw [hvy, hvz] at h2; exact absurd rfl h2
  | some v1, none, _ => rw [hvx, hvy] at h1; exact absurd rfl h1
  | none, some v2, some v3 => simp
  | none, some v2, none => rw [hvy, hvz] at h2; exact absurd rfl h2
  | none, none, some v3 => simp
  | none, none, none =>
    rw [hvx, hvy] at h1; rw [hvy, hvz] at h2
    by_cases hx : x.path = claudeBareName <;>
      by_cases hy : y.path = claudeBareName <;>
      by_cases hz : z.path = claudeBareName <;>
      simp_all

/-! ### `max_by` facts -/

theorem foldl_maxByStep_mem :
    ∀ (t : List ClaudeInstallation) (acc : ClaudeInstallation),
      t.foldl maxByStep acc = acc ∨ t.foldl maxByStep acc ∈ t := by
  intro t
  induction t with
  | nil => intro acc; left; rfl
  | cons b t ih =>
    intro acc
    rw [List.foldl_cons]
    by_cases hc : installCmp acc b = .gt
    · rw [show maxByStep acc b = acc from if_pos hc]
      rcases ih acc with h | h
      · left; exact h
      · right; exact List.mem_cons_of_mem b h
    · rw [show maxByStep acc b = b from if_neg hc]
      rcases ih b with h | h
      · right; rw [h]; exact List.mem_cons_self b t
      · right; exact List.mem_cons_of_mem b h

theorem foldl_maxByStep_acc_le :
    ∀ (t : List ClaudeInstallation) (acc : ClaudeInstallation),
      installCmp acc (t.foldl maxByStep acc) ≠ .gt := by
  intro t
  induction t with
  | nil => intro acc; simp [installCmp_self]
  | cons b t ih =>
    intro acc
    rw [List.foldl_cons]
    by_cases hc : installCmp acc b = .gt
    · rw [show maxByStep acc b = acc from if_pos hc]; exact ih acc
    · rw [show maxByStep acc b = b from if_neg hc]
      exact installCmp_le_trans hc (ih b)

theorem foldl_maxByStep_max :
    ∀ (t : List ClaudeInstallation) (acc x : ClaudeInstallation), x ∈ t →
      installCmp x (t.foldl maxByStep acc) ≠ .gt := by
  intro t
  induction t with
  | nil => intro acc x hx; exact absurd hx (List.not_mem_nil x)
  | cons b t ih =>
    intro acc x hx
    rw [List.foldl_cons]
    rcases List.mem_cons.mp hx with hxb | hxt
    · by_cases hc : installCmp acc b = .gt
      · rw [show maxByStep acc b = acc from if_pos hc]
        have hba : installCmp x acc ≠ .gt := by
          rw [hxb, installCmp_swap, hc]; simp [Ordering.swap]
        exact installCmp_le_trans hba (foldl_maxByStep_acc_le t acc)
      · rw [show maxByStep acc b = b from if_neg hc]
        rw [hxb]
        exact foldl_maxByStep_acc_le t b
    · exact ih (maxByStep acc b) x hxt

/-! ## Catalog building (`discover_system_installations`) -/

/-- The `retain`/`HashSet::insert` deduplication loop of
`discover_system_installations`: keep an installation only when its `path`
has not been seen before. -/
def dedupByPathGo : List ClaudeInstallation → List (List Char) → List ClaudeInstallation
| [], _ => []
| x :: t, seen =>
  if x.path ∈ seen then dedupByPathGo t seen
  else x :: dedupByPathGo t (x.path :: seen)

/-- `discover_system_installations` from `claude_binary.rs`.  The three
scanners perform I/O; their results are passed in explicitly, in the
source's concatenation order: the ambient `which` lookup first, then the
NVM scanners, then the standard-path scanner. -/
def discover_system_installations (which_result : Option ClaudeInstallation)
    (nvm_installations standard_installations : List ClaudeInstallation) :
    List ClaudeInstallation :=
  dedupByPathGo (which_result.toList ++ nvm_installations ++ standard_installations) []

theorem dedupByPathGo_path_not_seen :
    ∀ (l : List ClaudeInstallation) (seen : List (List Char)) (y : ClaudeInstallation),
      y ∈ dedupByPathGo l seen → y.path ∉ seen := by
  intro l
  induction l with
  | nil => intro seen y hy; exact absurd hy (List.not_mem_nil y)
  | cons x t ih =>
    intro seen y hy
    unfold dedupByPathGo at hy
    by_cases hx : x.path ∈ seen
    · rw [if_pos hx] at hy
      exact ih seen y hy
    · rw [if_neg hx] at hy
      rcases List.mem_cons.mp hy with hyx | hyt
      · rw [hyx]; exact hx
      · intro hmem
        exact ih (x.path :: seen) y hyt (List.mem_cons_of_mem _ hmem)

theorem dedupByPathGo_pairwise :
    ∀ (l : List ClaudeInstallation) (seen : List (List Char)),
      (dedupByPathGo l seen).Pairwise (fun a b => a.path ≠ b.path) := by
  intro l
  induction l with
  | nil => intro seen; exact List.Pairwise.nil
  | cons x t ih =>
    intro seen
    unfold dedupByPathGo
    by_cases hx : x.path ∈ seen
    · rw [if_pos hx]; exact ih seen
    · rw [if_neg hx]
      refine List.Pairwise.cons ?_ (ih (x.path :: seen))
      intro y hy
      have := dedupByPathGo_path_not_seen t (x.path :: seen) y hy
      intro hcontra
      exact this (hcontra ▸ List.mem_cons_self x.path seen)

theorem dedupByPathGo_sublist :
    ∀ (l : List ClaudeInstallation) (seen : List (List Char)),
      (dedupByPathGo l seen).Sublist l := by
  intro l
  induction l with
  | nil => intro seen; exact List.Sublist.refl []
  | cons x t ih =>
    intro seen
    unfold dedupByPathGo
    by_cases hx : x.path ∈ seen
    · rw [if_pos hx]; exact (ih seen).cons x
    · rw [if_neg hx]; exact (ih (x.path :: seen)).cons₂ x

theorem dedupByPathGo_find? :
    ∀ (l : List ClaudeInstallation) (seen : List (List Char)) (p : List Char),
      p ∉ seen →
      (dedupByPathGo l seen).find? (fun i => i.path == p) =
        l.find? (fun i => i.path == p) := by
  intro l
  induction l with
  | nil => intro seen p _; rfl
  | cons x t ih =>
    intro seen p hp
    unfold dedupByPathGo
    by_cases hx : x.path ∈ seen
    · rw [if_pos hx]
      have hxp : (x.path == p) = false := by
        cases h : x.path == p
        · rfl
        · exact absurd (beq_iff_eq.mp h ▸ hx) hp
      rw [List.find?_cons_of_neg _ (by simp [hxp]), ih seen p hp]
    · rw [if_neg hx]
      by_cases hxp : x.path = p
      · rw [List.find?_cons_of_pos _ (by simp [hxp]),
          List.find?_cons_of_pos _ (by simp [hxp])]
      · rw [List.find?_cons_of_neg _ (by simp [hxp]),
          List.find?_cons_of_neg _ (by simp [hxp])]
        refine ih (x.path :: seen) p ?_
        intro hmem
        rcases List.mem_cons.mp hmem with h | h
        · exact hxp h.symm
        · exact hp h

/-! ## Top-level discovery (`find_claude_binary`) -/

/-- The error message returned when no installation was discovered,
verbatim from `find_claude_binary`. -/
def notFoundMsg : List Char :=
  "Claude Code not found. Please ensure it".data ++ [Char.ofNat 39] ++
    "s installed in one of these locations: PATH, /usr/local/bin, /opt/homebrew/bin, ~/.nvm/versions/node/*/bin, ~/.claude/local, ~/.local/bin".data

/-- The discovery phase of `find_claude_binary` from `claude_binary.rs`,
from the point where the catalog has been built (the stored-path fast path
reads the settings database and is environment state, so the discovered
catalog is an explicit argument here): an empty catalog is the error case,
otherwise the best installation's path is returned. -/
def find_claude_binary (installations : List ClaudeInstallation) :
    Except (List Char) (List Char) :=
  if installations.isEmpty then .error notFoundMsg
  else
    match select_best_installation installations with
    | some best => .ok best.path
    | none => .error "No valid Claude installation found".data

/-! ## Claim C1 -/

/-- C1: `select_best_installation` is a pure maximum over the catalog: the
result is a member of the catalog that no member beats under the selection
comparator; the comparator orders two versioned candidates by
`compare_versions`, lets a versioned candidate beat an unversioned one
regardless of any other field, and among unversioned candidates lets a
path different from the bare fallback name "claude" beat the bare name;
and the result is `none` if and only if the catalog is empty. -/
theorem select_best_installation_spec :
    (∀ l, select_best_installation l = none ↔ l = []) ∧
    (∀ l b, select_best_installation l = some b →
      b ∈ l ∧ ∀ x ∈ l, installCmp x b ≠ .gt) ∧
    (∀ a b : ClaudeInstallation, ∀ v1 v2, a.version = some v1 → b.version = some v2 →
      installCmp a b = compare_versions v1 v2) ∧
    (∀ a b : ClaudeInstallation, ∀ v, a.version = some v → b.version = none →
      installCmp a b = .gt) ∧
    (∀ a b : ClaudeInstallation, a.version = none → b.version = none →
      a.path ≠ claudeBareName → b.path = claudeBareName → installCmp a b = .gt) := by
  refine ⟨?_, ?_, ?_, ?_, ?_⟩
  · intro l
    cases l with
    | nil => simp [select_best_installation]
    | cons h t => simp [select_best_installation]
  · intro l b hb
    cases l with
    | nil => exact absurd hb (by simp [select_best_installation])
    | cons h t =>
      have hb' : t.foldl maxByStep h = b := by
        simpa [select_best_installation] using hb
      constructor
      · rcases foldl_maxByStep_mem t h with hmem | hmem
        · rw [← hb', hmem]; exact List.mem_cons_self h t
        · rw [← hb']; exact List.mem_cons_of_mem h hmem
      · intro x hx
        rcases List.mem_cons.mp hx with hxh | hxt
        · rw [← hb', hxh]; exact foldl_maxByStep_acc_le t h
        · rw [← hb']; exact foldl_maxByStep_max t h x hxt
  · intro a b v1 v2 h1 h2
    unfold installCmp
    rw [h1, h2]
  · intro a b v h1 h2
    unfold installCmp
    rw [h1, h2]
  · intro a b h1 h2 h3 h4
    unfold installCmp
    rw [h1, h2]
    simp [h3, h4]

theorem select_best_installation_spec_witness :
    ((⟨"/opt/x".data, none, "s".data, .System, none⟩ : ClaudeInstallation) ∈
        [(⟨"/opt/x".data, none, "s".data, .System, none⟩ : ClaudeInstallation)] ∧
      ∀ x ∈ [(⟨"/opt/x".data, none, "s".data, .System, none⟩ : ClaudeInstallation)],
        installCmp x ⟨"/opt/x".data, none, "s".data, .System, none⟩ ≠ .gt) ∧
    installCmp ⟨"/opt/x".data, none, "s".data, .System, none⟩
      ⟨"claude".data, none, "PATH".data, .System, none⟩ = .gt :=
  ⟨select_best_installation_spec.2.1 _ _ rfl,
    select_best_installation_spec.2.2.2.2 _ _ rfl rfl (by decide) (by decide)⟩

/-- Fidelity check: a segment whose leading numeric run contains a
non-ASCII digit (here U+0663, ARABIC-INDIC DIGIT THREE) fails the `u32`
parse and is dropped whole, so `"1\u0663.0"` compares below `"1.0"`. -/
theorem compare_versions_nonascii_numeric_segment :
    compare_versions ('1' :: Char.ofNat 1635 :: ".0".data) "1.0".data = .lt := by decide

/-! ## Claim C2 -/

/-- C2 counterexample: the claim's reference definition keeps segments that
fail to parse as 0 in their position, but `compare_versions` drops them:
on `"1.x.2"` versus `"1.0.2"` the code compares [1, 2] against [1, 0, 2]
and answers `gt`, while the claim's reference answers `eq`. -/
theorem compare_versions_not_position_keeping :
    compare_versions "1.x.2".data "1.0.2".data = .gt ∧
    specCompareVersions "1.x.2".data "1.0.2".data = .eq ∧
    compare_versions "1.x.2".data "1.0.2".data ≠
      specCompareVersions "1.x.2".data "1.0.2".data := by
  refine ⟨by decide, by decide, by decide⟩

/-- C2 (amended): `compare_versions` splits each input on `'.'`, takes from
each segment its leading run of decimal digits and parses it as a `u32`;
segments that fail to parse (empty digit run, or overflow) are DROPPED,
shifting later segments left; the two resulting integer sequences are then
padded with 0 to equal length and compared lexicographically by segment. -/
theorem compare_versions_amended (a b : List Char) :
    compare_versions a b = cmpParts (versionParts a) (versionParts b) :=
  compare_versions_eq_cmpParts a b

/-! ## Claim C3 -/

/-- C3: `discover_system_installations` deduplicates the concatenated
scanner output ('which' result, then NVM results, then standard-path
results) by exact path equality: the catalog has pairwise distinct paths,
is a sublist (order preserved) of the concatenation, and looking any path
up in the catalog finds exactly the first occurrence in the concatenation,
with all its metadata. -/
theorem discover_system_installations_dedup :
    ∀ (which_result : Option ClaudeInstallation)
      (nvm_installations standard_installations : List ClaudeInstallation),
      (discover_system_installations which_result nvm_installations
          standard_installations).Pairwise (fun a b => a.path ≠ b.path) ∧
      (discover_system_installations which_result nvm_installations
          standard_installations).Sublist
        (which_result.toList ++ nvm_installations ++ standard_installations) ∧
      ∀ p, (discover_system_installations which_result nvm_installations
          standard_installations).find? (fun i => i.path == p) =
        (which_result.toList ++ nvm_installations ++ standard_installations).find?
          (fun i => i.path == p) := by
  intro w n s
  refine ⟨dedupByPathGo_pairwise _ _, dedupByPathGo_sublist _ _, ?_⟩
  intro p
  exact dedupByPathGo_find? _ [] p (List.not_mem_nil p)

/-! ## Claim C5 -/

/-- C5: `compare_versions` behaves as a total order on version strings:
exactly one of less/equal/greater holds for every pair, the comparison of
`(a, b)` is the reverse of the comparison of `(b, a)`, `"1.2.3"` equals
itself, `"1.2.10"` beats `"1.2.9"` numerically, and `"1.0.0-beta"`
compares equal to `"1.0.0"`. -/
theorem compare_versions_total_order :
    (∀ a b : List Char,
      (compare_versions a b = .lt ∧ compare_versions a b ≠ .eq ∧
        compare_versions a b ≠ .gt) ∨
      (compare_versions a b = .eq ∧ compare_versions a b ≠ .lt ∧
        compare_versions a b ≠ .gt) ∨
      (compare_versions a b = .gt ∧ compare_versions a b ≠ .lt ∧
        compare_versions a b ≠ .eq)) ∧
    (∀ a b : List Char, compare_versions a b = (compare_versions b a).swap) ∧
    compare_versions "1.2.3".data "1.2.3".data = .eq ∧
    compare_versions "1.2.10".data "1.2.9".data = .gt ∧
    compare_versions "1.0.0-beta".data "1.0.0".data = .eq := by
  refine ⟨?_, ?_, by decide, by decide, by decide⟩
  · intro a b
    cases h : compare_versions a b with
    | lt => left; simp [h]
    | eq => right; left; simp [h]
    | gt => right; right; simp [h]
  · intro a b
    rw [compare_versions_eq_cmpParts, compare_versions_eq_cmpParts]
    exact cmpParts_swap _ _

/-! ## Claim C8 -/

/-- C8: when the built catalog is empty, `find_claude_binary` returns the
NotFound error whose message enumerates the checked locations; whenever the
catalog is non-empty, it selects a best installation and returns its path
rather than an error. -/
theorem find_claude_binary_not_found :
    find_claude_binary [] = .error notFoundMsg ∧
    ("PATH".data <:+: notFoundMsg ∧
      "/usr/local/bin".data <:+: notFoundMsg ∧
      "/opt/homebrew/bin".data <:+: notFoundMsg ∧
      "~/.nvm/versions/node/*/bin".data <:+: notFoundMsg ∧
      "~/.claude/local".data <:+: notFoundMsg ∧
      "~/.local/bin".data <:+: notFoundMsg) ∧
    ∀ l : List ClaudeInstallation, l ≠ [] →
      ∃ best, select_best_installation l = some best ∧
        find_claude_binary l = .ok best.path := by
  refine ⟨rfl, ⟨by decide, by decide, by decide, by decide, by decide, by decide⟩, ?_⟩
  intro l hl
  cases l with
  | nil => exact absurd rfl hl
  | cons h t => exact ⟨t.foldl maxByStep h, rfl, rfl⟩

theorem find_claude_binary_not_found_witness :
    ∃ best, select_best_installation
        [(⟨"/opt/x".data, some "1.0.0".data, "s".data, .System, none⟩ : ClaudeInstallation)] =
          some best ∧
      find_claude_binary
        [(⟨"/opt/x".data, some "1.0.0".data, "s".data, .System, none⟩ : ClaudeInstallation)] =
          .ok best.path :=
  find_claude_binary_not_found.2.2 _ (by decide)

/-! ## Path translation (`shell_environment.rs`, `windows_to_wsl_path`) -/

/-- The single-quote character (written numerically throughout). -/
def squote : Char := Char.ofNat 39

/-- `str::replace('\\', "/")`: normalize every backslash to a forward
slash. -/
def normSlash (p : List Char) : List Char :=
  p.map (fun c => if c = '\\' then '/' else c)

/-- `rest[slash_pos..]` / `format!("/{}", rest)` of the WSL-UNC branches:
drop the leading distribution-name segment, keeping the separating slash;
when no slash exists, prepend one. -/
def afterDistro (rest : List Char) : List Char :=
  match rest.dropWhile (fun c => c != '/') with
  | [] => '/' :: rest
  | l => l

/-- The branch structure of `windows_to_wsl_path`, applied to the
backslash-normalized path `path`: the two WSL UNC prefixes first, then
generic UNC, then the drive-letter form, else passthrough. -/
def wslPathAfterNorm (path : List Char) : List Char :=
  if ("//wsl.localhost/".data).isPrefixOf path then
    afterDistro (path.drop 16)
  else if ("//wsl$/".data).isPrefixOf path then
    afterDistro (path.drop 7)
  else if ("//".data).isPrefixOf path then
    "/mnt/".data ++ path.drop 2
  else
    match path with
    | c0 :: ':' :: rest => "/mnt/".data ++ c0.toLower :: rest
    | _ => path

/-- `windows_to_wsl_path` from `shell_environment.rs` (Windows build):
replace every backslash by a forward slash, then apply the branch rules.
The drive-letter branch follows the source's `chars().nth(1) == ':'` test
and byte slice `&path[2..]` at the character level (the source and this
model agree whenever the first character is ASCII, which a drive letter
is). -/
def windows_to_wsl_path (windows_path : List Char) : List Char :=
  wslPathAfterNorm (normSlash windows_path)

/-- `windows_to_wsl_path` from `shell_environment.rs` (non-Windows build):
the identity. -/
def windows_to_wsl_path_nonwindows (path : List Char) : List Char := path

theorem takeWhile_all_append {p : Char → Bool} :
    ∀ (d r : List Char), (∀ c ∈ d, p c) →
      (d ++ r).takeWhile p = d ++ r.takeWhile p := by
  intro d
  induction d with
  | nil => intro r _; rfl
  | cons c d ih =>
    intro r hd
    have hc : p c := hd c (List.mem_cons_self c d)
    simp [List.takeWhile_cons, hc, ih r
      (fun x hx => hd x (List.mem_cons_of_mem c hx))]

theorem dropWhile_all_append {p : Char → Bool} :
    ∀ (d r : List Char), (∀ c ∈ d, p c) →
      (d ++ r).dropWhile p = r.dropWhile p := by
  intro d
  induction d with
  | nil => intro r _; rfl
  | cons c d ih =>
    intro r hd
    have hc : p c := hd c (List.mem_cons_self c d)
    simp only [List.cons_append, List.dropWhile_cons, hc, if_true]
    exact ih r (fun x hx => hd x (List.mem_cons_of_mem c hx))

theorem isPrefixOf_cons_cons (a b : Char) (l1 l2 : List Char) :
    (a :: l1).isPrefixOf (b :: l2) = (a == b && l1.isPrefixOf l2) := rfl

theorem isPrefixOf_self_append :
    ∀ (l t : List Char), (l.isPrefixOf (l ++ t)) = true := by
  intro l t
  induction l with
  | nil => simp
  | cons c l ih => simp [isPrefixOf_cons_cons, ih]

theorem normSlash_append (a b : List Char) :
    normSlash (a ++ b) = normSlash a ++ normSlash b := List.map_append _ a b

theorem normSlash_fixed {c : Char} (h1 : c ≠ '\\') : ∀ l,
    normSlash (c :: l) = c :: normSlash l := by
  intro l
  simp [normSlash, h1]

theorem afterDistro_skips :
    ∀ (d r : List Char), (∀ c ∈ d, c ≠ '/') →
      afterDistro (d ++ '/' :: r) = '/' :: r := by
  intro d r hd
  unfold afterDistro
  have hdrop : (d ++ '/' :: r).dropWhile (fun c => c != '/') = '/' :: r := by
    rw [dropWhile_all_append d ('/' :: r) (fun c hc => bne_iff_ne.mpr (hd c hc))]
    simp [List.dropWhile_cons]
  rw [hdrop]

theorem normSlash_id : ∀ l : List Char, (∀ c ∈ l, c ≠ '\\') → normSlash l = l := by
  intro l h
  induction l with
  | nil => rfl
  | cons c t ih =>
    rw [normSlash_fixed (h c (List.mem_cons_self c t))]
    rw [ih (fun x hx => h x (List.mem_cons_of_mem c hx))]

theorem wslPathAfterNorm_localhost (X : List Char) :
    wslPathAfterNorm ("//wsl.localhost/".data ++ X) = afterDistro X := by
  unfold wslPathAfterNorm
  rw [if_pos (isPrefixOf_self_append _ X)]
  rw [List.drop_left' (by decide : ("//wsl.localhost/".data).length = 16)]

theorem isPrefixOf_localhost_dollar (X : List Char) :
    ("//wsl.localhost/".data).isPrefixOf ("//wsl$/".data ++ X) = false := rfl

theorem wslPathAfterNorm_dollar (X : List Char) :
    wslPathAfterNorm ("//wsl$/".data ++ X) = afterDistro X := by
  unfold wslPathAfterNorm
  rw [if_neg (by rw [isPrefixOf_localhost_dollar X]; exact Bool.false_ne_true)]
  rw [if_pos (isPrefixOf_self_append _ X)]
  rw [List.drop_left' (by decide : ("//wsl$/".data).length = 7)]

theorem wslPathAfterNorm_unc (X : List Char)
    (h1 : ("wsl.localhost/".data).isPrefixOf X = false)
    (h2 : ("wsl$/".data).isPrefixOf X = false) :
    wslPathAfterNorm ('/' :: '/' :: X) = "/mnt/".data ++ X := by
  unfold wslPathAfterNorm
  rw [if_neg (by
    show ¬(("//wsl.localhost/".data).isPrefixOf ('/' :: '/' :: X) = true)
    have : ("//wsl.localhost/".data).isPrefixOf ('/' :: '/' :: X) =
        ("wsl.localhost/".data).isPrefixOf X := by
      show (('/' : Char) :: '/' :: "wsl.localhost/".data).isPrefixOf ('/' :: '/' :: X) = _
      rw [isPrefixOf_cons_cons, isPrefixOf_cons_cons]
      simp
    rw [this, h1]
    exact Bool.false_ne_true)]
  rw [if_neg (by
    show ¬(("//wsl$/".data).isPrefixOf ('/' :: '/' :: X) = true)
    have : ("//wsl$/".data).isPrefixOf ('/' :: '/' :: X) =
        ("wsl$/".data).isPrefixOf X := by
      show (('/' : Char) :: '/' :: "wsl$/".data).isPrefixOf ('/' :: '/' :: X) = _
      rw [isPrefixOf_cons_cons, isPrefixOf_cons_cons]
      simp
    rw [this, h2]
    exact Bool.false_ne_true)]
  rw [if_pos (by
    show (("//".data).isPrefixOf ('/' :: '/' :: X)) = true
    show ((('/' : Char) :: '/' :: []).isPrefixOf ('/' :: '/' :: X)) = true
    rw [isPrefixOf_cons_cons, isPrefixOf_cons_cons]
    simp)]
  rfl

theorem wslPathAfterNorm_drive (c : Char) (rest : List Char) (hc : c ≠ '/') :
    wslPathAfterNorm (c :: ':' :: rest) = "/mnt/".data ++ c.toLower :: rest := by
  have hb : (('/' : Char) == c) = false := beq_eq_false_iff_ne.mpr (Ne.symm hc)
  unfold wslPathAfterNorm
  rw [if_neg (by
    show ¬((("//wsl.localhost/".data)).isPrefixOf (c :: ':' :: rest) = true)
    show ¬((('/' : Char) :: "/wsl.localhost/".data).isPrefixOf (c :: ':' :: rest) = true)
    rw [isPrefixOf_cons_cons, hb]
    simp)]
  rw [if_neg (by
    show ¬((("//wsl$/".data)).isPrefixOf (c :: ':' :: rest) = true)
    show ¬((('/' : Char) :: "/wsl$/".data).isPrefixOf (c :: ':' :: rest) = true)
    rw [isPrefixOf_cons_cons, hb]
    simp)]
  rw [if_neg (by
    show ¬((("//".data)).isPrefixOf (c :: ':' :: rest) = true)
    show ¬((('/' : Char) :: "/".data).isPrefixOf (c :: ':' :: rest) = true)
    rw [isPrefixOf_cons_cons, hb]
    simp)]
  rfl

theorem wslPathAfterNorm_passthrough (path : List Char)
    (h1 : ("//".data).isPrefixOf path = false)
    (h2 : path.get? 1 ≠ some ':') :
    wslPathAfterNorm path = path := by
  have hpre : ∀ t : List Char, (("//".data ++ t).isPrefixOf path) = true →
      ("//".data).isPrefixOf path = true := by
    intro t ht
    rw [List.isPrefixOf_iff_prefix] at ht
    have h2' : ("//".data) <+: ("//".data ++ t) := ⟨t, rfl⟩
    rw [List.isPrefixOf_iff_prefix]
    exact h2'.trans ht
  unfold wslPathAfterNorm
  rw [if_neg (by
    intro hcontra
    have := hpre "wsl.localhost/".data hcontra
    rw [h1] at this
    exact Bool.false_ne_true this)]
  rw [if_neg (by
    intro hcontra
    have := hpre "wsl$/".data hcontra
    rw [h1] at this
    exact Bool.false_ne_true this)]
  rw [if_neg (by rw [h1]; exact Bool.false_ne_true)]
  match path, h2 with
  | [], _ => rfl
  | [c0], _ => rfl
  | c0 :: c1 :: rest, h2 =>
    have hc1 : c1 ≠ ':' := by
      intro he
      exact h2 (by rw [he]; rfl)
    split
    · next c0' rest' heq =>
      rw [List.cons.injEq, List.cons.injEq] at heq
      exact absurd heq.2.1 hc1
    · rfl

theorem normSlash_bslash (l : List Char) : normSlash ('\\' :: l) = '/' :: normSlash l := by
  simp [normSlash]

/-! ## Claim C4 -/

/-- C4: `windows_to_wsl_path` applies, in priority order: a UNC path with
prefix `\\wsl.localhost\` or `\\wsl$\` is rewritten by dropping the leading
distribution-name segment; a drive-letter path `<letter>:<rest>` becomes
`/mnt/` plus the lower-cased drive letter plus the (slash-normalized)
remainder; any other UNC path becomes `/mnt/` plus the remainder; any other
path passes through with only backslashes replaced.  In particular the two
concrete translations from the spec hold, and the non-Windows build of the
function is the identity. -/
theorem windows_to_wsl_path_spec :
    (∀ distro rest : List Char, (∀ c ∈ distro, c ≠ '/' ∧ c ≠ '\\') →
      windows_to_wsl_path ("\\\\wsl.localhost\\".data ++ distro ++ '\\' :: rest) =
        '/' :: normSlash rest) ∧
    (∀ distro rest : List Char, (∀ c ∈ distro, c ≠ '/' ∧ c ≠ '\\') →
      windows_to_wsl_path ("\\\\wsl$\\".data ++ distro ++ '\\' :: rest) =
        '/' :: normSlash rest) ∧
    (∀ (c : Char) (rest : List Char), c.isAlpha →
      windows_to_wsl_path (c :: ':' :: rest) =
        "/mnt/".data ++ c.toLower :: normSlash rest) ∧
    (∀ rest : List Char,
      ("wsl.localhost/".data).isPrefixOf (normSlash rest) = false →
      ("wsl$/".data).isPrefixOf (normSlash rest) = false →
      windows_to_wsl_path ('\\' :: '\\' :: rest) = "/mnt/".data ++ normSlash rest) ∧
    (∀ p : List Char, ("//".data).isPrefixOf (normSlash p) = false →
      (normSlash p).get? 1 ≠ some ':' →
      windows_to_wsl_path p = normSlash p) ∧
    windows_to_wsl_path "C:\\Users\\x\\proj".data = "/mnt/c/Users/x/proj".data ∧
    windows_to_wsl_path "\\\\wsl.localhost\\Ubuntu\\home\\x".data = "/home/x".data ∧
    (∀ p : List Char, windows_to_wsl_path_nonwindows p = p) := by
  have hnorm : ∀ (pre distro rest : List Char), (∀ c ∈ distro, c ≠ '\\') →
      normSlash (pre ++ distro ++ '\\' :: rest) =
        normSlash pre ++ (distro ++ '/' :: normSlash rest) := by
    intro pre distro rest h
    rw [List.append_assoc, normSlash_append, normSlash_append, normSlash_id distro h,
      normSlash_bslash]
  refine ⟨?_, ?_, ?_, ?_, ?_, by decide, by decide, fun p => rfl⟩
  · intro distro rest h
    unfold windows_to_wsl_path
    rw [hnorm _ _ _ (fun c hc => (h c hc).2)]
    rw [show normSlash "\\\\wsl.localhost\\".data = "//wsl.localhost/".data from by decide]
    rw [wslPathAfterNorm_localhost]
    exact afterDistro_skips distro _ (fun c hc => (h c hc).1)
  · intro distro rest h
    unfold windows_to_wsl_path
    rw [hnorm _ _ _ (fun c hc => (h c hc).2)]
    rw [show normSlash "\\\\wsl$\\".data = "//wsl$/".data from by decide]
    rw [wslPathAfterNorm_dollar]
    exact afterDistro_skips distro _ (fun c hc => (h c hc).1)
  · intro c rest halpha
    have hcb : c ≠ '\\' := by
      intro he; rw [he] at halpha; exact absurd halpha (by decide)
    have hcs : c ≠ '/' := by
      intro he; rw [he] at halpha; exact absurd halpha (by decide)
    unfold windows_to_wsl_path
    rw [normSlash_fixed hcb, normSlash_fixed (by decide : (':' : Char) ≠ '\\')]
    exact wslPathAfterNorm_drive c (normSlash rest) hcs
  · intro rest h1 h2
    unfold windows_to_wsl_path
    rw [normSlash_bslash, normSlash_bslash]
    exact wslPathAfterNorm_unc (normSlash rest) h1 h2
  · intro p h1 h2
    unfold windows_to_wsl_path
    exact wslPathAfterNorm_passthrough (normSlash p) h1 h2

theorem windows_to_wsl_path_spec_witness :
    windows_to_wsl_path ("\\\\wsl$\\".data ++ "Debian".data ++ '\\' :: "etc/hosts".data) =
        '/' :: normSlash "etc/hosts".data ∧
    windows_to_wsl_path ('D' :: ':' :: "\\data".data) =
        "/mnt/".data ++ 'D'.toLower :: normSlash "\\data".data ∧
    windows_to_wsl_path ('\\' :: '\\' :: "server\\share".data) =
        "/mnt/".data ++ normSlash "server\\share".data ∧
    windows_to_wsl_path "/already/posix/path".data = normSlash "/already/posix/path".data :=
  ⟨windows_to_wsl_path_spec.2.1 "Debian".data "etc/hosts".data (by decide),
    windows_to_wsl_path_spec.2.2.1 'D' "\\data".data (by decide),
    windows_to_wsl_path_spec.2.2.2.1 "server\\share".data (by decide) (by decide),
    windows_to_wsl_path_spec.2.2.2.2.1 "/already/posix/path".data (by decide) (by decide)⟩

/-! ## Bridged command construction (`create_wsl_command`) -/

/-- Rust `str::replace` with a single-character pattern: every occurrence
of `c` is replaced by `r`. -/
def rustReplace (s : List Char) (c : Char) (r : List Char) : List Char :=
  s.flatMap (fun x => if x = c then r else [x])

/-- The backtick character (written numerically). -/
def btick : Char := Char.ofNat 96

/-- The argument escaping of `create_wsl_command`: the source's four chained
`replace` calls, backslash first, then double quote, dollar and backtick. -/
def escapeWslArg (a : List Char) : List Char :=
  rustReplace
    (rustReplace
      (rustReplace
        (rustReplace a '\\' ('\\' :: '\\' :: []))
        '"' ('\\' :: '"' :: []))
      '$' ('\\' :: '$' :: []))
    btick ('\\' :: btick :: [])

/-- `format!("\"{}\"", escaped)`: wrap an escaped argument in double
quotes. -/
def quoteWslArg (a : List Char) : List Char := '"' :: escapeWslArg a ++ ['"']

/-- The single-quote escaping applied to the working-directory literal:
`replace('\'', "'\\''")`. -/
def escapeWslWorkingDir (d : List Char) : List Char :=
  rustReplace d squote (squote :: '\\' :: squote :: squote :: [])

/-- An invocation specification: program, argument vector, and optional
working directory (Rust `Command` with an optional `current_dir`). -/
structure SpawnSpec where
  program : List Char
  args : List (List Char)
  current_dir : Option (List Char)
deriving DecidableEq, Repr

/-- The `bash -lc` command string built by `create_wsl_command`:
`cd '<escaped working dir>' && <claude_path> <quoted args>`. -/
def wslBashCommand (claude_path : List Char) (args : List (List Char))
    (working_dir : List Char) : List Char :=
  "cd ".data ++ [squote] ++ escapeWslWorkingDir (windows_to_wsl_path working_dir) ++
    [squote] ++ " && ".data ++ claude_path ++ " ".data ++
    List.intercalate " ".data (args.map quoteWslArg)

/-- `create_wsl_command` from `shell_environment.rs` (Windows build): a
`wsl` invocation, optionally `-d <distro>`, running
`bash -lc <command string>`. -/
def create_wsl_command (distro : Option (List Char)) (claude_path : List Char)
    (args : List (List Char)) (working_dir : List Char) : SpawnSpec :=
  { program := "wsl".data
    args := (match distro with
      | some d => ["-d".data, d]
      | none => []) ++
      ["bash".data, "-lc".data, wslBashCommand claude_path args working_dir]
    current_dir := none }

/-- `create_wsl_command` from `shell_environment.rs` (non-Windows build):
a direct invocation of the target with the given arguments and working
directory. -/
def create_wsl_command_nonwindows (_distro : Option (List Char))
    (claude_path : List Char) (args : List (List Char)) (working_dir : List Char) :
    SpawnSpec :=
  { program := claude_path
    args := args
    current_dir := some working_dir }

/-- The escaping described by the spec: each backslash, double-quote,
dollar, and backtick character is escaped by a preceding backslash,
character by character. -/
def escapeSpecChar (c : Char) : List Char :=
  if c = '\\' ∨ c = '"' ∨ c = '$' ∨ c = btick then ['\\', c] else [c]

theorem rustReplace_append (s t : List Char) (c : Char) (r : List Char) :
    rustReplace (s ++ t) c r = rustReplace s c r ++ rustReplace t c r := by
  simp [rustReplace]

theorem escapeWslArg_append (s t : List Char) :
    escapeWslArg (s ++ t) = escapeWslArg s ++ escapeWslArg t := by
  simp [escapeWslArg, rustReplace_append]

theorem escapeWslArg_singleton (x : Char) :
    escapeWslArg [x] = escapeSpecChar x := by
  by_cases h1 : x = '\\'
  · subst h1; rfl
  · by_cases h2 : x = '"'
    · subst h2; rfl
    · by_cases h3 : x = '$'
      · subst h3; rfl
      · by_cases h4 : x = btick
        · subst h4; rfl
        · simp [escapeWslArg, rustReplace, escapeSpecChar, h1, h2, h3, h4]

theorem escapeWslArg_eq_spec (a : List Char) :
    escapeWslArg a = a.flatMap escapeSpecChar := by
  induction a with
  | nil => rfl
  | cons x t ih =>
    rw [show x :: t = [x] ++ t from rfl, escapeWslArg_append, ih,
      escapeWslArg_singleton]
    simp

/-! ## Claim C7 -/

/-- C7: `create_wsl_command` builds a `bash -lc` command string of the form
`cd '<translated working dir>' && <target> <args>`, in which every argument
is wrapped in double quotes with each backslash, double-quote, dollar and
backtick escaped by a preceding backslash, and the working-directory
literal has every embedded single quote replaced by the sequence
`'\''`; on a non-bridging platform the result is a direct invocation of
the target with the given arguments and working directory, with no
translation or escaping. -/
theorem create_wsl_command_spec :
    (∀ (distro : Option (List Char)) (claude_path : List Char)
        (args : List (List Char)) (working_dir : List Char),
      (create_wsl_command distro claude_path args working_dir).program = "wsl".data ∧
      (create_wsl_command distro claude_path args working_dir).current_dir = none ∧
      (create_wsl_command distro claude_path args working_dir).args =
        (match distro with | some d => ["-d".data, d] | none => []) ++
          ["bash".data, "-lc".data,
            "cd ".data ++ [squote] ++
              rustReplace (windows_to_wsl_path working_dir) squote
                (squote :: '\\' :: squote :: squote :: []) ++
              [squote] ++ " && ".data ++ claude_path ++ " ".data ++
              List.intercalate " ".data
                (args.map (fun a => '"' :: a.flatMap escapeSpecChar ++ ['"']))]) ∧
    (∀ (distro : Option (List Char)) (claude_path : List Char)
        (args : List (List Char)) (working_dir : List Char),
      create_wsl_command_nonwindows distro claude_path args working_dir =
        ⟨claude_path, args, some working_dir⟩) := by
  constructor
  · intro distro claude_path args working_dir
    refine ⟨rfl, rfl, ?_⟩
    have hmap : args.map quoteWslArg =
        args.map (fun a => '"' :: a.flatMap escapeSpecChar ++ ['"']) :=
      List.map_congr_left (fun a _ => by
        unfold quoteWslArg
        rw [escapeWslArg_eq_spec])
    simp only [create_wsl_command, wslBashCommand, escapeWslWorkingDir, hmap]
  · intro distro claude_path args working_dir
    rfl

/-! ## Lossy UTF-8 decoding (`String::from_utf8_lossy`) -/

/-- Is `b` a UTF-8 continuation byte (`0x80..=0xBF`)? -/
def utf8Cont (b : Nat) : Bool := 0x80 ≤ b ∧ b ≤ 0xBF

/-- Valid second byte of a three-byte sequence led by `b0` (the `E0`/`ED`
special ranges of UTF-8 validation). -/
def utf8Valid3 (b0 b1 : Nat) : Bool :=
  if b0 = 0xE0 then 0xA0 ≤ b1 ∧ b1 ≤ 0xBF
  else if b0 = 0xED then 0x80 ≤ b1 ∧ b1 ≤ 0x9F
  else utf8Cont b1

/-- Valid second byte of a four-byte sequence led by `b0` (the `F0`/`F4`
special ranges of UTF-8 validation). -/
def utf8Valid4 (b0 b1 : Nat) : Bool :=
  if b0 = 0xF0 then 0x90 ≤ b1 ∧ b1 ≤ 0xBF
  else if b0 = 0xF4 then 0x80 ≤ b1 ∧ b1 ≤ 0x8F
  else utf8Cont b1

/-- The replacement character U+FFFD. -/
def replChar : Char := Char.ofNat 0xFFFD

/-- `String::from_utf8_lossy`, one maximal ill-formed subsequence replaced
by one U+FFFD, restarting at the first offending byte.  `fuel` bounds the
number of steps; every step consumes at least one byte, so `fuel =` input
length is always enough (see `utf8Lossy`). -/
def utf8LossyGo : Nat → List Nat → List Char
| 0, _ => []
| _, [] => []
| fuel + 1, b0 :: rest =>
  if b0 ≤ 0x7F then Char.ofNat b0 :: utf8LossyGo fuel rest
  else if 0xC2 ≤ b0 ∧ b0 ≤ 0xDF then
    match rest with
    | b1 :: r1 =>
      if utf8Cont b1 then
        Char.ofNat ((b0 - 0xC0) * 64 + (b1 - 0x80)) :: utf8LossyGo fuel r1
      else replChar :: utf8LossyGo fuel (b1 :: r1)
    | [] => [replChar]
  else if 0xE0 ≤ b0 ∧ b0 ≤ 0xEF then
    match rest with
    | b1 :: r1 =>
      if utf8Valid3 b0 b1 then
        match r1 with
        | b2 :: r2 =>
          if utf8Cont b2 then
            Char.ofNat ((b0 - 0xE0) * 4096 + (b1 - 0x80) * 64 + (b2 - 0x80)) ::
              utf8LossyGo fuel r2
          else replChar :: utf8LossyGo fuel (b2 :: r2)
        | [] => [replChar]
      else replChar :: utf8LossyGo fuel (b1 :: r1)
    | [] => [replChar]
  else if 0xF0 ≤ b0 ∧ b0 ≤ 0xF4 then
    match rest with
    | b1 :: r1 =>
      if utf8Valid4 b0 b1 then
        match r1 with
        | b2 :: r2 =>
          if utf8Cont b2 then
            match r2 with
            | b3 :: r3 =>
              if utf8Cont b3 then
                Char.ofNat ((b0 - 0xF0) * 262144 + (b1 - 0x80) * 4096 +
                    (b2 - 0x80) * 64 + (b3 - 0x80)) :: utf8LossyGo fuel r3
              else replChar :: utf8LossyGo fuel (b3 :: r3)
            | [] => [replChar]
          else replChar :: utf8LossyGo fuel (b2 :: r2)
        | [] => [replChar]
      else replChar :: utf8LossyGo fuel (b1 :: r1)
    | [] => [replChar]
  else replChar :: utf8LossyGo fuel rest

/-- Lossy UTF-8 decoding of a byte sequence. -/
def utf8Lossy (bytes : List Nat) : List Char := utf8LossyGo bytes.length bytes

/-- UTF-8 bytes of an ASCII string (used only to build concrete inputs). -/
def strBytes (s : String) : List Nat := s.data.map Char.toNat

/-! ## Version extraction (`extract_version_from_output`) -/

/-- The regex character class `[a-zA-Z0-9.-]` of the version pattern. -/
def versClassChar (c : Char) : Bool := c.isAlpha || c.isDigit || c = '.' || c = '-'

/-- Match of the mandatory core `\d+\.\d+\.\d+` at the head of `s`,
returning the matched text and the remaining input.  Greedy digit runs are
exact here because a digit run followed by `\.` can only be the maximal
run (`\d` and `\.` are disjoint).  `\d` is the Unicode category `Nd`. -/
def matchCore (s : List Char) : Option (List Char × List Char) :=
  if s.takeWhile regexDigit = [] then none else
  match s.dropWhile regexDigit with
  | '.' :: r2 =>
    if r2.takeWhile regexDigit = [] then none else
    match r2.dropWhile regexDigit with
    | '.' :: r4 =>
      if r4.takeWhile regexDigit = [] then none
      else some (s.takeWhile regexDigit ++ '.' ::
        (r2.takeWhile regexDigit ++ '.' :: r4.takeWhile regexDigit),
        r4.dropWhile regexDigit)
    | _ => none
  | _ => none

/-- Greedy match of one optional suffix group `(?:<mark>[a-zA-Z0-9.-]+)?`
(`mark` is `'-'` for pre-release, `'+'` for build metadata): present only
when the marker is followed by at least one class character. -/
def matchOpt (mark : Char) (s : List Char) : List Char × List Char :=
  match s with
  | c :: t =>
    if c = mark ∧ t.takeWhile versClassChar ≠ [] then
      (c :: t.takeWhile versClassChar, t.dropWhile versClassChar)
    else ([], s)
  | [] => ([], s)

/-- Match of the full version pattern
`\d+\.\d+\.\d+(?:-[a-zA-Z0-9.-]+)?(?:\+[a-zA-Z0-9.-]+)?` at the head of
`s`. -/
def matchVersionAt (s : List Char) : Option (List Char) :=
  match matchCore s with
  | none => none
  | some (core, rest) =>
    let p1 := matchOpt '-' rest
    let p2 := matchOpt '+' p1.2
    some (core ++ (p1.1 ++ p2.1))

/-- Leftmost match: try the pattern at each successive start position. -/
def firstMatch : List Char → Option (List Char)
| [] => none
| c :: t =>
  match matchVersionAt (c :: t) with
  | some v => some v
  | none => firstMatch t

/-- `extract_version_from_output` from `claude_binary.rs`: decode the raw
bytes with lossy UTF-8 replacement, then return the regex's first
(leftmost) match of the version pattern, suffixes included, or `none`.
Total on every byte input: no failure path exists. -/
def extract_version_from_output (stdout : List Nat) : Option (List Char) :=
  firstMatch (utf8Lossy stdout)

/-- Declarative statement that the mandatory core of the version pattern
matches at the head of `s`: `s` begins with three nonempty digit runs
separated by dots. -/
def VersionCoreAt (s : List Char) : Prop :=
  ∃ d1 d2 d3 rest, s = d1 ++ '.' :: (d2 ++ '.' :: (d3 ++ rest)) ∧
    d1 ≠ [] ∧ d2 ≠ [] ∧ d3 ≠ [] ∧
    (∀ c ∈ d1, regexDigit c) ∧ (∀ c ∈ d2, regexDigit c) ∧ (∀ c ∈ d3, regexDigit c)

/-- Declarative shape of one optional suffix group. -/
def SuffixShape (mark : Char) (s1 : List Char) : Prop :=
  s1 = [] ∨ ∃ t, s1 = mark :: t ∧ t ≠ [] ∧ ∀ c ∈ t, versClassChar c

/-- Declarative shape of a full matched version token. -/
def VersionShape (v : List Char) : Prop :=
  ∃ d1 d2 d3 s1 s2, v = d1 ++ '.' :: (d2 ++ '.' :: (d3 ++ (s1 ++ s2))) ∧
    d1 ≠ [] ∧ d2 ≠ [] ∧ d3 ≠ [] ∧
    (∀ c ∈ d1, regexDigit c) ∧ (∀ c ∈ d2, regexDigit c) ∧ (∀ c ∈ d3, regexDigit c) ∧
    SuffixShape '-' s1 ∧ SuffixShape '+' s2

theorem matchCore_sound {s t rest : List Char} (h : matchCore s = some (t, rest)) :
    s = t ++ rest ∧
    ∃ d1 d2 d3, t = d1 ++ '.' :: (d2 ++ '.' :: d3) ∧
      d1 ≠ [] ∧ d2 ≠ [] ∧ d3 ≠ [] ∧
      (∀ c ∈ d1, regexDigit c) ∧ (∀ c ∈ d2, regexDigit c) ∧ (∀ c ∈ d3, regexDigit c) := by
  unfold matchCore at h
  split at h
  · exact absurd h (by simp)
  · split at h
    · next r2 heq2 =>
      split at h
      · exact absurd h (by simp)
      · split at h
        · next r4 heq4 =>
          split at h
          · exact absurd h (by simp)
          · rw [Option.some.injEq, Prod.mk.injEq] at h
            obtain ⟨ht, hrest⟩ := h
            constructor
            · rw [← ht, ← hrest]
              have e1 : s = s.takeWhile regexDigit ++ ('.' :: r2) := by
                rw [← heq2, List.takeWhile_append_dropWhile]
              have e2 : r2 = r2.takeWhile regexDigit ++ ('.' :: r4) := by
                rw [← heq4, List.takeWhile_append_dropWhile]
              have e3 : r4 = r4.takeWhile regexDigit ++ r4.dropWhile regexDigit :=
                (List.takeWhile_append_dropWhile _ _).symm
              calc s = s.takeWhile regexDigit ++ ('.' :: r2) := e1
                _ = s.takeWhile regexDigit ++ ('.' ::
                      (r2.takeWhile regexDigit ++ ('.' :: r4))) := by rw [← e2]
                _ = s.takeWhile regexDigit ++ ('.' ::
                      (r2.takeWhile regexDigit ++ ('.' ::
                        (r4.takeWhile regexDigit ++ r4.dropWhile regexDigit)))) := by
                      rw [← e3]
                _ = _ := by simp
            · refine ⟨s.takeWhile regexDigit, r2.takeWhile regexDigit,
                r4.takeWhile regexDigit, ht.symm, by assumption, by assumption,
                by assumption, ?_, ?_, ?_⟩ <;>
                exact fun c hc => List.mem_takeWhile_imp hc
        · exact absurd h (by simp)
    · exact absurd h (by simp)

theorem matchCore_complete {s : List Char} (h : VersionCoreAt s) :
    ∃ t rest, matchCore s = some (t, rest) := by
  obtain ⟨d1, d2, d3, rest, hs, h1, h2, h3, hd1, hd2, hd3⟩ := h
  have hdot : regexDigit '.' = false := by decide
  have htake1 : s.takeWhile regexDigit = d1 := by
    rw [hs, takeWhile_all_append d1 _ hd1]
    simp [List.takeWhile_cons, hdot]
  have hdrop1 : s.dropWhile regexDigit = '.' :: (d2 ++ '.' :: (d3 ++ rest)) := by
    rw [hs, dropWhile_all_append d1 _ hd1]
    simp [List.dropWhile_cons, hdot]
  have htake2 : (d2 ++ '.' :: (d3 ++ rest)).takeWhile regexDigit = d2 := by
    rw [takeWhile_all_append d2 _ hd2]
    simp [List.takeWhile_cons, hdot]
  have hdrop2 : (d2 ++ '.' :: (d3 ++ rest)).dropWhile regexDigit =
      '.' :: (d3 ++ rest) := by
    rw [dropWhile_all_append d2 _ hd2]
    simp [List.dropWhile_cons, hdot]
  have hne3 : (d3 ++ rest).takeWhile regexDigit ≠ [] := by
    cases hd : d3 with
    | nil => exact absurd hd h3
    | cons c t3 =>
      have hc : regexDigit c := hd3 c (by rw [hd]; exact List.mem_cons_self c t3)
      rw [List.cons_append, List.takeWhile_cons, hc]
      simp
  unfold matchCore
  simp only [htake1, hdrop1, htake2, hdrop2]
  rw [if_neg h1, if_neg h2, if_neg hne3]
  exact ⟨_, _, rfl⟩

theorem matchOpt_spec (mark : Char) (s : List Char) :
    s = (matchOpt mark s).1 ++ (matchOpt mark s).2 ∧
      SuffixShape mark (matchOpt mark s).1 := by
  cases s with
  | nil => exact ⟨rfl, Or.inl rfl⟩
  | cons c t =>
    have hred : matchOpt mark (c :: t) =
        if c = mark ∧ t.takeWhile versClassChar ≠ [] then
          (c :: t.takeWhile versClassChar, t.dropWhile versClassChar)
        else ([], c :: t) := rfl
    rw [hred]
    by_cases hc : c = mark ∧ t.takeWhile versClassChar ≠ []
    · rw [if_pos hc]
      constructor
      · show c :: t = (c :: t.takeWhile versClassChar) ++ t.dropWhile versClassChar
        simp [List.takeWhile_append_dropWhile]
      · exact Or.inr ⟨t.takeWhile versClassChar, by rw [hc.1], hc.2,
          fun x hx => List.mem_takeWhile_imp hx⟩
    · rw [if_neg hc]
      exact ⟨rfl, Or.inl rfl⟩

theorem matchVersionAt_none_iff (s : List Char) :
    matchVersionAt s = none ↔ ¬ VersionCoreAt s := by
  constructor
  · intro h hcore
    obtain ⟨t, rest, hm⟩ := matchCore_complete hcore
    unfold matchVersionAt at h
    rw [hm] at h
    exact absurd h (by simp)
  · intro h
    unfold matchVersionAt
    cases hm : matchCore s with
    | none => rfl
    | some pr =>
      obtain ⟨hs, d1, d2, d3, ht, h1, h2, h3, hd1, hd2, hd3⟩ :=
        matchCore_sound (show matchCore s = some (pr.1, pr.2) from by rw [hm])
      exact absurd ⟨d1, d2, d3, pr.2, by rw [hs, ht]; simp, h1, h2, h3, hd1, hd2, hd3⟩ h

theorem matchVersionAt_sound {s v : List Char} (h : matchVersionAt s = some v) :
    VersionShape v ∧ ∃ r, s = v ++ r := by
  unfold matchVersionAt at h
  cases hm : matchCore s with
  | none => rw [hm] at h; exact absurd h (by simp)
  | some pr =>
    rw [hm] at h
    rw [Option.some.injEq] at h
    obtain ⟨hs, d1, d2, d3, ht, h1, h2, h3, hd1, hd2, hd3⟩ :=
      matchCore_sound (show matchCore s = some (pr.1, pr.2) from by rw [hm])
    obtain ⟨he1, hs1⟩ := matchOpt_spec '-' pr.2
    obtain ⟨he2, hs2⟩ := matchOpt_spec '+' (matchOpt '-' pr.2).2
    constructor
    · refine ⟨d1, d2, d3, (matchOpt '-' pr.2).1, (matchOpt '+' (matchOpt '-' pr.2).2).1,
        ?_, h1, h2, h3, hd1, hd2, hd3, hs1, hs2⟩
      rw [← h, ht]
      simp
    · refine ⟨(matchOpt '+' (matchOpt '-' pr.2).2).2, ?_⟩
      rw [← h, hs]
      conv_lhs => rw [he1]
      conv_lhs => rw [he2]
      simp

theorem matchVersionAt_nil : matchVersionAt ([] : List Char) = none := rfl

theorem firstMatch_none_iff :
    ∀ s : List Char, firstMatch s = none ↔ ∀ i, matchVersionAt (s.drop i) = none := by
  intro s
  induction s with
  | nil =>
    constructor
    · intro _ i
      rw [List.drop_nil]
      exact matchVersionAt_nil
    · intro _; rfl
  | cons c t ih =>
    constructor
    · intro h i
      unfold firstMatch at h
      cases hm : matchVersionAt (c :: t) with
      | some v => rw [hm] at h; exact absurd h (by simp)
      | none =>
        rw [hm] at h
        cases i with
        | zero => exact hm
        | succ j => exact (ih.mp h) j
    · intro h
      have h0 : matchVersionAt (c :: t) = none := by
        have := h 0
        rwa [List.drop_zero] at this
      unfold firstMatch
      rw [h0]
      exact ih.mpr (fun i => h (i + 1))

theorem firstMatch_some :
    ∀ s v : List Char, firstMatch s = some v →
      ∃ i, matchVersionAt (s.drop i) = some v ∧
        ∀ j < i, matchVersionAt (s.drop j) = none := by
  intro s
  induction s with
  | nil => intro v h; exact absurd h (by simp [firstMatch])
  | cons c t ih =>
    intro v h
    unfold firstMatch at h
    cases hm : matchVersionAt (c :: t) with
    | some w =>
      rw [hm] at h
      rw [Option.some.injEq] at h
      exact ⟨0, by rw [List.drop_zero, hm, h], fun j hj => absurd hj (Nat.not_lt_zero j)⟩
    | none =>
      rw [hm] at h
      obtain ⟨i, hi, hj⟩ := ih v h
      refine ⟨i + 1, hi, ?_⟩
      intro j hjlt
      cases j with
      | zero => exact hm
      | succ j' => exact hj j' (Nat.lt_of_succ_lt_succ hjlt)

/-- Fidelity check: the regex's `\d` covers non-ASCII decimal digits, so
the UTF-8 bytes of `"\u0661.\u0662.\u0663"` (Arabic-Indic digits) match and
are returned verbatim. -/
theorem extract_version_from_output_nonascii :
    extract_version_from_output [0xD9, 0xA1, 0x2E, 0xD9, 0xA2, 0x2E, 0xD9, 0xA3] =
      some (Char.ofNat 1633 :: '.' :: Char.ofNat 1634 :: '.' :: Char.ofNat 1635 :: []) := by
  decide

/-! ## Claim C6 -/

/-- C6: `extract_version_from_output` decodes its byte input with lossy
UTF-8 replacement (it is total, so no input can make it fail) and returns
the leftmost substring matching
`\d+\.\d+\.\d+(?:-[a-zA-Z0-9.-]+)?(?:\+[a-zA-Z0-9.-]+)?` verbatim,
suffixes included: it returns `none` exactly when no position of the
decoded text starts a `digits.digits.digits` core match; a returned value
has the version-token shape and occurs verbatim in the decoded text at the
first position admitting a core match; and `"claude 1.0.41\n"` yields
`"1.0.41"` while digitless text yields `none`. -/
theorem extract_version_from_output_spec :
    (∀ stdout : List Nat,
      (extract_version_from_output stdout = none ↔
        ∀ i, ¬ VersionCoreAt ((utf8Lossy stdout).drop i)) ∧
      (∀ v, extract_version_from_output stdout = some v →
        VersionShape v ∧
        ∃ i, (∀ j < i, ¬ VersionCoreAt ((utf8Lossy stdout).drop j)) ∧
          ∃ post, utf8Lossy stdout = (utf8Lossy stdout).take i ++ (v ++ post))) ∧
    extract_version_from_output (strBytes "claude 1.0.41\n") = some "1.0.41".data ∧
    extract_version_from_output (strBytes "no version substring") = none := by
  refine ⟨?_, by decide, by decide⟩
  intro stdout
  constructor
  · unfold extract_version_from_output
    rw [firstMatch_none_iff]
    simp only [matchVersionAt_none_iff]
  · intro v h
    unfold extract_version_from_output at h
    obtain ⟨i, hi, hj⟩ := firstMatch_some (utf8Lossy stdout) v h
    obtain ⟨hshape, r, hr⟩ := matchVersionAt_sound hi
    refine ⟨hshape, i, fun j hj' => (matchVersionAt_none_iff _).mp (hj j hj'), r, ?_⟩
    conv_lhs => rw [← List.take_append_drop i (utf8Lossy stdout)]
    rw [hr]

theorem extract_version_from_output_spec_witness :
    VersionShape "1.0.41".data ∧
    ∃ i, (∀ j < i, ¬ VersionCoreAt ((utf8Lossy (strBytes "claude 1.0.41\n")).drop j)) ∧
      ∃ post, utf8Lossy (strBytes "claude 1.0.41\n") =
        (utf8Lossy (strBytes "claude 1.0.41\n")).take i ++ ("1.0.41".data ++ post) :=
  (extract_version_from_output_spec.1 (strBytes "claude 1.0.41\n")).2 "1.0.41".data
    (by decide)

/-! ## WSL distribution detection (`detect_wsl_distributions`) -/

/-- `WslDistribution` from `shell_environment.rs`. -/
structure WslDistribution where
  name : List Char
  is_default : Bool
  version : Option Nat
deriving DecidableEq, Repr

/-- `u16::from_le_bytes` over `chunks_exact(2)`: pair up bytes
little-endian, dropping a trailing odd byte. -/
def chunksExactU16 : List Nat → List Nat
| b0 :: b1 :: t => (b0 + b1 * 256) :: chunksExactU16 t
| _ => []

/-- `String::from_utf16_lossy`: surrogate pairs combine; unpaired
surrogates become U+FFFD. -/
def utf16Lossy : List Nat → List Char
| [] => []
| u :: rest =>
  if u < 0xD800 ∨ 0xDFFF < u then Char.ofNat u :: utf16Lossy rest
  else if u ≤ 0xDBFF then
    match rest with
    | v :: rest2 =>
      if 0xDC00 ≤ v ∧ v ≤ 0xDFFF then
        Char.ofNat (0x10000 + (u - 0xD800) * 0x400 + (v - 0xDC00)) :: utf16Lossy rest2
      else replChar :: utf16Lossy (v :: rest2)
    | [] => [replChar]
  else replChar :: utf16Lossy rest

/-- The null character. -/
def nulChar : Char := Char.ofNat 0

/-- The encoding heuristic of `detect_wsl_distributions`: decode the bytes
as lossy UTF-8; when that text holds more than five null characters, assume
UTF-16LE instead and decode the bytes pairwise. -/
def decodeWslOutput (stdout : List Nat) : List Char :=
  if 5 < ((utf8Lossy stdout).filter (fun c => c = nulChar)).length then
    utf16Lossy (chunksExactU16 stdout)
  else utf8Lossy stdout

/-- Rust `char::is_whitespace` (the Unicode `White_Space` code points). -/
def rustIsWhitespace (c : Char) : Bool :=
  [9, 10, 11, 12, 13, 32, 0x85, 0xA0, 0x1680,
    0x2000, 0x2001, 0x2002, 0x2003, 0x2004, 0x2005, 0x2006, 0x2007, 0x2008,
    0x2009, 0x200A, 0x2028, 0x2029, 0x202F, 0x205F, 0x3000].contains c.toNat

/-- Rust `str::trim`: strip whitespace from both ends. -/
def rustTrim (s : List Char) : List Char :=
  ((s.dropWhile rustIsWhitespace).reverse.dropWhile rustIsWhitespace).reverse

/-- Strip one trailing carriage return (the per-line behavior of
`str::lines`). -/
def stripCR (l : List Char) : List Char :=
  if l.getLast? = some (Char.ofNat 13) then l.dropLast else l

/-- Rust `str::lines`: split on newline, drop the trailing empty piece
produced by a final newline, and strip one trailing `\r` per line. -/
def rustLines (s : List Char) : List (List Char) :=
  (if (s.splitOn (Char.ofNat 10)).getLast? = some [] then
    (s.splitOn (Char.ofNat 10)).dropLast
  else s.splitOn (Char.ofNat 10)).map stripCR

/-- Rust `str::split_whitespace` (accumulator holds the current word in
reverse). -/
def splitWhitespaceGo : List Char → List Char → List (List Char)
| [], acc => if acc = [] then [] else [acc.reverse]
| c :: t, acc =>
  if rustIsWhitespace c then
    if acc = [] then splitWhitespaceGo t []
    else acc.reverse :: splitWhitespaceGo t []
  else splitWhitespaceGo t (c :: acc)

/-- Rust `str::split_whitespace`. -/
def rustSplitWhitespace (s : List Char) : List (List Char) := splitWhitespaceGo s []

/-- Rust `str::parse::<u8>`: an optional leading `'+'`, then a nonempty
run of decimal digits whose value fits in a `u8`. -/
def parseU8 (l : List Char) : Option Nat :=
  match if l.head? = some '+' then l.tail else l with
  | [] => none
  | ds => if ds.all Char.isDigit ∧ digitsVal ds ≤ 255 then some (digitsVal ds) else none

/-- The per-line parse of `detect_wsl_distributions`: trim the line, skip
empty lines, mark a leading `'*'` as the default marker, strip all leading
`'*'`, split on whitespace; the first token is the name (skipped when it is
the header word `NAME` or empty), the third, when parseable as `u8`, is the
WSL version. -/
def lineToDistro (raw : List Char) : Option WslDistribution :=
  if rustTrim raw = [] then none
  else
    match (rustSplitWhitespace ((rustTrim raw).dropWhile (fun c => c = '*'))).head? with
    | none => none
    | some name =>
      if name = "NAME".data ∨ name = [] then none
      else some
        { name := name
          is_default := (rustTrim raw).head? = some '*'
          version :=
            ((rustSplitWhitespace
                ((rustTrim raw).dropWhile (fun c => c = '*'))).drop 2).head?.bind
              parseU8 }

/-- `detect_wsl_distributions` from `shell_environment.rs`, from the raw
stdout bytes of `wsl --list --verbose` (the subprocess call is I/O, so the
bytes are an explicit argument): decode, skip the header line, and parse
one distribution per non-empty line. -/
def detect_wsl_distributions (stdout : List Nat) : List WslDistribution :=
  ((rustLines (decodeWslOutput stdout)).drop 1).filterMap lineToDistro

theorem countP_filterMap_le (f : List Char → Option WslDistribution)
    (p : WslDistribution → Bool) (q : List Char → Bool)
    (hf : ∀ l d, f l = some d → p d = q l) :
    ∀ L : List (List Char), (L.filterMap f).countP p ≤ L.countP q := by
  intro L
  induction L with
  | nil => simp
  | cons l L ih =>
    cases hfl : f l with
    | none =>
      rw [List.filterMap_cons_none hfl, List.countP_cons]
      omega
    | some d =>
      rw [List.filterMap_cons_some hfl, List.countP_cons, List.countP_cons,
        hf l d hfl]
      omega

theorem lineToDistro_default {l : List Char} {d : WslDistribution}
    (h : lineToDistro l = some d) :
    d.is_default = decide ((rustTrim l).head? = some '*') := by
  unfold lineToDistro at h
  split at h
  · exact absurd h (by simp)
  · split at h
    · exact absurd h (by simp)
    · split at h
      · exact absurd h (by simp)
      · rw [Option.some.injEq] at h
        rw [← h]

/-! ## Claim C9 -/

/-- C9 counterexample: `detect_wsl_distributions` marks every line that
begins with `'*'` as default, so a listing output with two starred lines
yields two records with `is_default = true` — the at-most-one-default
claim fails on this output. -/
theorem detect_wsl_distributions_two_defaults :
    ¬ ((detect_wsl_distributions
        (strBytes "  NAME STATE VERSION\n* Ubuntu Running 2\n* Debian Stopped 2\n")).countP
          (fun d => d.is_default) ≤ 1) := by decide

/-- C9 (amended): a parsed distribution is default exactly when its own
trimmed line begins with the `'*'` marker; consequently at most one
distribution is default whenever at most one non-header line of the
decoded output begins (after trimming) with `'*'` — but not for every
possible output. -/
theorem detect_wsl_distributions_amended :
    ∀ stdout : List Nat,
      ((rustLines (decodeWslOutput stdout)).drop 1).countP
          (fun l => (rustTrim l).head? = some '*') ≤ 1 →
      (detect_wsl_distributions stdout).countP (fun d => d.is_default) ≤ 1 := by
  intro stdout h
  refine le_trans ?_ h
  exact countP_filterMap_le lineToDistro _ _
    (fun l d hd => lineToDistro_default hd) _

theorem detect_wsl_distributions_amended_witness :
    (detect_wsl_distributions
        (strBytes "  NAME STATE VERSION\n* Ubuntu Running 2\n  Debian Stopped 2\n")).countP
      (fun d => d.is_default) ≤ 1 :=
  detect_wsl_distributions_amended _ (by decide)

/-! ## Shell configuration (`shell_environment.rs`, `commands/shell.rs`) -/

/-- `ShellEnvironment` from `shell_environment.rs`. -/
inductive ShellEnvironment
| Native
| Wsl
| GitBash
deriving DecidableEq, Repr

/-- The `Display` implementation of `ShellEnvironment`. -/
def shellEnvironmentToString : ShellEnvironment → List Char
| .Native => "native".data
| .Wsl => "wsl".data
| .GitBash => "gitbash".data

/-- Rust `str::to_lowercase` restricted to ASCII (the stored values are
ASCII; `Char.toLower` agrees with Rust on ASCII letters). -/
def toLowerStr (s : List Char) : List Char := s.map Char.toLower

/-- The `FromStr` implementation of `ShellEnvironment`: lowercase, then
match the accepted spellings. -/
def shellEnvironmentFromStr (s : List Char) : Except (List Char) ShellEnvironment :=
  if toLowerStr s = "native".data ∨ toLowerStr s = "powershell".data ∨
      toLowerStr s = "cmd".data then .ok .Native
  else if toLowerStr s = "wsl".data ∨ toLowerStr s = "wsl2".data then .ok .Wsl
  else if toLowerStr s = "gitbash".data ∨ toLowerStr s = "git-bash".data ∨
      toLowerStr s = "git_bash".data ∨ toLowerStr s = "bash".data then .ok .GitBash
  else .error ("Unknown shell environment: ".data ++ s)

/-- `ShellConfig` from `shell_environment.rs`. -/
structure ShellConfig where
  environment : ShellEnvironment
  wsl_distro : Option (List Char)
  wsl_claude_path : Option (List Char)
  git_bash_path : Option (List Char)
deriving DecidableEq, Repr

/-- The settings store (the `app_settings` table): a string-keyed map of
string values, accessed by get, set (`INSERT OR REPLACE`) and delete. -/
def SettingsStore : Type := List Char → Option (List Char)

/-- `INSERT OR REPLACE INTO app_settings (key, value)`. -/
def storeSet (k v : List Char) (st : SettingsStore) : SettingsStore :=
  fun q => if q = k then some v else st q

/-- `DELETE FROM app_settings WHERE key = k`. -/
def storeDelete (k : List Char) (st : SettingsStore) : SettingsStore :=
  fun q => if q = k then none else st q

/-- `save_shell_config` from `commands/shell.rs`: store the environment's
display form under `shell_environment`; store each `Some` optional field
under its key and delete the key of each `None` field. -/
def save_shell_config (config : ShellConfig) (st : SettingsStore) : SettingsStore :=
  let st1 := storeSet "shell_environment".data
    (shellEnvironmentToString config.environment) st
  let st2 := match config.wsl_distro with
    | some d => storeSet "wsl_distro".data d st1
    | none => storeDelete "wsl_distro".data st1
  let st3 := match config.wsl_claude_path with
    | some p => storeSet "wsl_claude_path".data p st2
    | none => storeDelete "wsl_claude_path".data st2
  match config.git_bash_path with
  | some p => storeSet "git_bash_path".data p st3
  | none => storeDelete "git_bash_path".data st3

/-- `get_shell_config` from `commands/shell.rs`: read each key; the
environment value is parsed with `FromStr`, defaulting to `Native` when
missing or unparseable; the optional fields are returned as read. -/
def get_shell_config (st : SettingsStore) : ShellConfig :=
  { environment :=
      ((st "shell_environment".data).bind
        (fun s => (shellEnvironmentFromStr s).toOption)).getD .Native
    wsl_distro := st "wsl_distro".data
    wsl_claude_path := st "wsl_claude_path".data
    git_bash_path := st "git_bash_path".data }

theorem save_shell_config_lookup (config : ShellConfig) (st : SettingsStore) :
    save_shell_config config st "shell_environment".data =
      some (shellEnvironmentToString config.environment) ∧
    save_shell_config config st "wsl_distro".data = config.wsl_distro ∧
    save_shell_config config st "wsl_claude_path".data = config.wsl_claude_path ∧
    save_shell_config config st "git_bash_path".data = config.git_bash_path := by
  obtain ⟨e, d, w, g⟩ := config
  unfold save_shell_config
  rcases d with _ | d <;> rcases w with _ | w <;> rcases g with _ | g <;>
    simp [storeSet, storeDelete]

/-! ## Claim C10 -/

/-- C10: saving a shell configuration and reading it back is a round trip:
the environment survives conversion to its display string and parsing back,
every `Some` optional field is stored and read back unchanged, and every
`None` optional field is deleted from the store and read back as `None` —
so `get_shell_config` after `save_shell_config` returns an equal
configuration, for every starting store. -/
theorem shell_config_round_trip :
    (∀ e : ShellEnvironment,
      shellEnvironmentFromStr (shellEnvironmentToString e) = .ok e) ∧
    (∀ (config : ShellConfig) (st : SettingsStore),
      get_shell_config (save_shell_config config st) = config ∧
      save_shell_config config st "wsl_distro".data = config.wsl_distro ∧
      save_shell_config config st "wsl_claude_path".data = config.wsl_claude_path ∧
      save_shell_config config st "git_bash_path".data = config.git_bash_path) := by
  constructor
  · intro e
    cases e <;> rfl
  · intro config st
    have lookups := save_shell_config_lookup config st
    refine ⟨?_, lookups.2.1, lookups.2.2.1, lookups.2.2.2⟩
    unfold get_shell_config
    rw [lookups.1, lookups.2.1, lookups.2.2.1, lookups.2.2.2]
    obtain ⟨e, d, w, g⟩ := config
    simp only [ShellConfig.mk.injEq, and_true]
    cases e <;> rfl
